import Mathlib

/-!
Shallow embedding of `LossyCounter.py` (repository `LossyCounting`): a
Lossy-Counting frequency estimator with a batch cache, a merge/flush
step, pruning, and bound queries, after Manku & Motwani (VLDB 2002).

Python dictionaries (`collections.Counter`, `dict`) are embedded as
association lists with unique keys kept in insertion order; Python ints
are `Nat` where the source keeps them non-negative and `Int` in the
construction model (where no sign information is available yet); Python
floats are `ℚ`.
-/

namespace LossyCounting

variable {α : Type} [DecidableEq α]

/-- Lookup in an association list (Python `dict.get(k)` / `k in d` basis). -/
def lookup : List (α × Nat) → α → Option Nat
  | [], _ => none
  | kv :: t, k => if kv.1 = k then some kv.2 else lookup t k

/-- Python `collections.Counter.__getitem__`: a missing key reads as `0`
(and is NOT inserted by the read). -/
def getD0 (l : List (α × Nat)) (k : α) : Nat :=
  (lookup l k).getD 0

/-- Python `k in d`. -/
def memk (l : List (α × Nat)) (k : α) : Bool :=
  (lookup l k).isSome

/-- Python `d[k] = v`: replace the value in place if the key is present,
otherwise append the new key at the end (dict insertion order). -/
def setk : List (α × Nat) → α → Nat → List (α × Nat)
  | [], k, v => [(k, v)]
  | kv :: t, k, v => if kv.1 = k then (k, v) :: t else kv :: setk t k v

/-- Python `del d[k]` (on dict states the key occurs at most once; the
embedding removes every occurrence, which agrees on such states). -/
def erasek : List (α × Nat) → α → List (α × Nat)
  | [], _ => []
  | kv :: t, k => if kv.1 = k then erasek t k else kv :: erasek t k

/-- Python `Counter.update(chunk)`: increment the count of every item of the
chunk by its multiplicity, in order. -/
def counterUpdate (c : List (α × Nat)) (chunk : List α) : List (α × Nat) :=
  chunk.foldl (fun c x => setk c x (getD0 c x + 1)) c

/-- Model of `math.ceil(1/eps)` on the exact rational embedding of the float
`eps`: with `eps = eps.num / eps.den` in lowest terms (`eps.den > 0`),
`1/eps = eps.den / eps.num` and `⌈a/b⌉ = -((-a) fdiv b)`. -/
def ceilInv (eps : ℚ) : Int :=
  -(Int.fdiv (-(eps.den : Int)) eps.num)

/-- The mutable state of a `LossyCounter` object: configuration fields
(`eps`, `w`, `prune_limit`, `flush_limit`) plus the batch cache
(`_cache_counter`, `_cache_total`), the frequency table (`counter`), the
per-entry error bounds (`error`), the bucket clock (`_nbucket`) and the
global total (`total`). -/
structure LCState (α : Type) where
  eps : ℚ
  w : Nat
  prune_limit : Nat
  flush_limit : Nat
  cache_counter : List (α × Nat)
  cache_total : Nat
  counter : List (α × Nat)
  error : List (α × Nat)
  nbucket : Nat
  total : Nat
deriving DecidableEq

/-- Source `LossyCounter.__init__` for a valid positive `eps`:
`w = ceil(1/eps)`, both limits defaulting to `10*w`, all counters empty.
(The unvalidated construction over `Int` is `lossyCounterInit` below.) -/
def initL (eps : ℚ) (prune_limit flush_limit : Option Nat) : LCState α :=
  let w := (ceilInv eps).toNat
  { eps := eps
    w := w
    prune_limit := prune_limit.getD (10*w)
    flush_limit := flush_limit.getD (10*w)
    cache_counter := []
    cache_total := 0
    counter := []
    error := []
    nbucket := 0
    total := 0 }

/-- The keys removed by `LossyCounter.prune`: those with
`counter[key] + error[key] <= _nbucket`. (`self.error[key]` is a plain
dict access; on every reachable state the key-set invariant proved
below makes it defined, so the total `getD0` agrees with it.) -/
def pruneKeys (s : LCState α) : List α :=
  (s.counter.map Prod.fst).filter
    (fun key => decide (getD0 s.counter key + getD0 s.error key ≤ s.nbucket))

/-- Source `LossyCounter.prune`: two-phase removal of the infrequent keys from
both `counter` and `error`. -/
def prune (s : LCState α) : LCState α :=
  let keys := pruneKeys s
  { s with counter := keys.foldl erasek s.counter
           error := keys.foldl erasek s.error }

/-- One iteration of the loop in `LossyCounter.flush`, folding a cached
key into `(counter, error)`: accumulate if tracked, admit fresh keys
whose cached count exceeds `b` with error `_nbucket`, drop the rest. -/
def flushMergeStep (cache : List (α × Nat)) (b nb : Nat)
    (ce : List (α × Nat) × List (α × Nat)) (key : α) :
    List (α × Nat) × List (α × Nat) :=
  if memk ce.1 key then
    (setk ce.1 key (getD0 ce.1 key + getD0 cache key), ce.2)
  else if b < getD0 cache key then
    (setk ce.1 key (getD0 cache key), setk ce.2 key nb)
  else
    ce

/-- Source `LossyCounter.flush` up to (and excluding) the final pruning check:
merge the cache into the table, advance the bucket clock by
`b = _cache_total // w`, add the cache total to `total`, clear the cache. -/
def flushMain (s : LCState α) : LCState α :=
  let b := s.cache_total / s.w
  let ce := (s.cache_counter.map Prod.fst).foldl
    (flushMergeStep s.cache_counter b s.nbucket) (s.counter, s.error)
  { s with counter := ce.1
           error := ce.2
           nbucket := s.nbucket + b
           total := s.total + s.cache_total
           cache_counter := []
           cache_total := 0 }

/-- Source `LossyCounter.flush`: the merge above, then pruning when the table
has grown to at least `prune_limit` entries. -/
def flush (s : LCState α) : LCState α :=
  let s1 := flushMain s
  if s1.prune_limit ≤ s1.counter.length then prune s1 else s1

/-- The cache-update part of `LossyCounter.cache` (before the flush
check): count the chunk into `_cache_counter` and `_cache_total`. -/
def cacheAdd (s : LCState α) (chunk : List α) : LCState α :=
  { s with cache_counter := counterUpdate s.cache_counter chunk
           cache_total := s.cache_total + chunk.length }

/-- Source `LossyCounter.cache`: update the cache, then flush when
`_cache_total >= flush_limit`. -/
def cache (s : LCState α) (chunk : List α) : LCState α :=
  let s1 := cacheAdd s chunk
  if s1.flush_limit ≤ s1.cache_total then flush s1 else s1

/-- The `batched` generator (for a batch size `n ≥ 1`): split a list
into consecutive batches of `n`, the last one possibly shorter. -/
def batchedList (l : List α) (n : Nat) : List (List α) :=
  if h : l = [] ∨ n = 0 then [] else
    have : l.length - n < l.length := by
      rcases Nat.eq_zero_or_pos l.length with h0 | h0
      · exact absurd (List.eq_nil_of_length_eq_zero h0) (by tauto)
      · exact Nat.sub_lt h0 (Nat.pos_of_ne_zero (by tauto))
    l.take n :: batchedList (l.drop n) n
termination_by l.length
decreasing_by simpa using this

/-- Source `LossyCounter.count`: feed the iterable to `cache` in chunks of
`chunk_size` (defaulting to `flush_limit`), then a final flush, then —
as written in the source — call `prune` when the table is strictly
below `prune_limit` (a flush at or above the limit has already pruned). -/
def count (s : LCState α) (iterable : List α) (chunk_size : Option Nat) :
    LCState α :=
  let cs := chunk_size.getD s.flush_limit
  let s1 := (batchedList iterable cs).foldl cache s
  let s2 := flush s1
  if s2.counter.length < s2.prune_limit then prune s2 else s2

/-- The exception raised by `getCounts` / `getFreqItems` on an unknown
approximation mode (`raise NotImplementedError` in the source; the
spec's error taxonomy calls this condition `UnsupportedApproximation`). -/
inductive QueryError where
  | notImplementedError
deriving DecidableEq

/-- Source `LossyCounter.getCounts(keys, approx)`: per requested key, the lower
bound `counter[key]` (default `0`), the upper bound
`counter[key] + error[key]` (default `_nbucket`), or their middle point
(default `_nbucket/2`); any other mode raises. Python's result dict is
embedded as the list of `(key, value)` pairs in request order (duplicate
requested keys receive equal values). `self.error[key]` is a plain dict
access, guarded by `key in self.counter` and total on every reachable
state by the key-set invariant proved below. -/
def getCounts (s : LCState α) (keys : List α) (approx : String) :
    Except QueryError (List (α × ℚ)) :=
  if approx = "lower" then
    .ok (keys.map fun key =>
      (key, if memk s.counter key then (getD0 s.counter key : ℚ) else 0))
  else if approx = "upper" then
    .ok (keys.map fun key =>
      (key, if memk s.counter key then
        (getD0 s.counter key : ℚ) + (getD0 s.error key : ℚ)
      else (s.nbucket : ℚ)))
  else if approx = "median" then
    .ok (keys.map fun key =>
      (key, if memk s.counter key then
        (getD0 s.counter key : ℚ) + (getD0 s.error key : ℚ)/2
      else (s.nbucket : ℚ)/2))
  else
    .error .notImplementedError

/-- Source `LossyCounter.getFreqItems(threshold, approx)`: resolve the
threshold (`None` ↦ `eps`; a value `< 1` is scaled by `total`), then
list the tracked keys whose estimate in the given mode strictly exceeds
it; any other mode raises. -/
def getFreqItems (s : LCState α) (threshold : Option ℚ) (approx : String) :
    Except QueryError (List α) :=
  let t0 := threshold.getD s.eps
  let t := if t0 < 1 then t0 * (s.total : ℚ) else t0
  if approx = "lower" then
    .ok ((s.counter.map Prod.fst).filter
      (fun key => decide (t < (getD0 s.counter key : ℚ))))
  else if approx = "upper" then
    .ok ((s.counter.map Prod.fst).filter
      (fun key => decide (t < (getD0 s.counter key : ℚ) + (getD0 s.error key : ℚ))))
  else if approx = "median" then
    .ok ((s.counter.map Prod.fst).filter
      (fun key => decide (t < (getD0 s.counter key : ℚ) + (getD0 s.error key : ℚ)/2)))
  else
    .error .notImplementedError

/-- Source `LossyCounter.getCountsAndErrors(keys)`: per key the pair
`(counter[key], error.get(key, _nbucket))` (Counter read defaulting to
`0`, explicit dict `.get` default `_nbucket`). -/
def getCountsAndErrors (s : LCState α) (keys : List α) :
    List (α × Nat × Nat) :=
  keys.map fun key =>
    (key, getD0 s.counter key, (lookup s.error key).getD s.nbucket)

/-- Source `LossyCounter.getBounds(keys)`: per key the pair
`(lower, upper) = (counter[key], counter[key] + error.get(key, _nbucket))`. -/
def getBounds (s : LCState α) (keys : List α) : List (α × Nat × Nat) :=
  keys.map fun key =>
    (key, getD0 s.counter key,
      getD0 s.counter key + (lookup s.error key).getD s.nbucket)

/-- A call to one of the four query methods. -/
inductive QueryCall (α : Type) where
  | getCounts (keys : List α) (approx : String)
  | getFreqItems (threshold : Option ℚ) (approx : String)
  | getCountsAndErrors (keys : List α)
  | getBounds (keys : List α)

/-- The value a query call returns. -/
inductive QueryResult (α : Type) where
  | counts (r : List (α × ℚ))
  | items (r : List α)
  | countsAndErrors (r : List (α × Nat × Nat))
  | bounds (r : List (α × Nat × Nat))

/-- Method-level semantics of the query layer: result together with the
post-state. None of the four source methods assigns to any attribute,
and their reads never mutate (`Counter.__missing__` returns `0` without
inserting, `dict.get` never writes), so each branch leaves the state it
was given. -/
def runQuery (s : LCState α) (q : QueryCall α) :
    Except QueryError (QueryResult α) × LCState α :=
  match q with
  | .getCounts keys approx => ((getCounts s keys approx).map .counts, s)
  | .getFreqItems th approx => ((getFreqItems s th approx).map .items, s)
  | .getCountsAndErrors keys => (.ok (.countsAndErrors (getCountsAndErrors s keys)), s)
  | .getBounds keys => (.ok (.bounds (getBounds s keys)), s)

/-- The exceptions Python can actually raise in the constructor and the
`batched` utility. -/
inductive PyError where
  | zeroDivisionError
  | valueError
deriving DecidableEq

/-- The configuration part of a freshly constructed `LossyCounter`, over
`Int` since `__init__` performs no validation (the counter, error,
cache, `_nbucket` and `total` fields are all initialized empty or zero
exactly as in `initL` and are omitted here). -/
structure LCConfigZ where
  eps : ℚ
  w : Int
  prune_limit : Int
  flush_limit : Int
deriving DecidableEq

/-- Source `LossyCounter.__init__(eps, prune_limit, flush_limit)`: no argument
validation of any kind; the only failure is the `ZeroDivisionError` of
`1/eps` at `eps = 0`. Defaults: `prune_limit = flush_limit = 10*w`. -/
def lossyCounterInit (eps : ℚ) (prune_limit flush_limit : Option Int) :
    Except PyError LCConfigZ :=
  if eps = 0 then .error .zeroDivisionError
  else
    let w := ceilInv eps
    .ok { eps := eps
          w := w
          prune_limit := prune_limit.getD (10*w)
          flush_limit := flush_limit.getD (10*w) }

/-- The `batched(iterable, n)` utility: `ValueError` when `n < 1`
(raised on the first advance of the generator), otherwise the batches. -/
def batchedGen (l : List α) (n : Int) : Except PyError (List (List α)) :=
  if n < 1 then .error .valueError else .ok (batchedList l n.toNat)

/-- Relation `Reaches s t`: engine state `s` is reachable from a freshly
constructed counter by some sequence of `cache`/`count`/`flush`/`prune`
calls, `t` being the concatenation of every item submitted so far.
Construction is taken with any bucket width `w ≥ 1` (every `eps > 0`
yields `w = ceil(1/eps) ≥ 1`) and arbitrary limits, which covers every
state the unvalidated `__init__` can produce with a usable `eps`. The
`count` step carries the source's requirement that the resolved chunk
size be at least `1` (otherwise `batched` raises and nothing happens). -/
inductive Reaches : LCState α → List α → Prop where
  | init (eps : ℚ) (w pl fl : Nat) (hw : 1 ≤ w) :
      Reaches { eps := eps, w := w, prune_limit := pl, flush_limit := fl,
                cache_counter := [], cache_total := 0, counter := [],
                error := [], nbucket := 0, total := 0 } []
  | cacheS {s : LCState α} {t : List α} (chunk : List α) :
      Reaches s t → Reaches (cache s chunk) (t ++ chunk)
  | flushS {s : LCState α} {t : List α} :
      Reaches s t → Reaches (flush s) t
  | pruneS {s : LCState α} {t : List α} :
      Reaches s t → Reaches (prune s) t
  | countS {s : LCState α} {t : List α} (iterable : List α)
      (cs : Option Nat) (hcs : 1 ≤ cs.getD s.flush_limit) :
      Reaches s t → Reaches (count s iterable cs) (t ++ iterable)

/-- Well-formedness of the dictionary representations: each embedded
dict has pairwise distinct keys (automatic for Python dicts). -/
def WF (s : LCState α) : Prop :=
  (s.cache_counter.map Prod.fst).Nodup ∧
  (s.counter.map Prod.fst).Nodup ∧
  (s.error.map Prod.fst).Nodup

instance (s : LCState α) : Decidable (WF s) := by
  unfold WF; infer_instance

/-- The exact number of occurrences of `k` in the flushed portion of the
submitted stream `t` (everything submitted minus what still sits in the
batch cache). -/
def flushedCount (s : LCState α) (t : List α) (k : α) : Nat :=
  t.count k - getD0 s.cache_counter k

/-- The inductive invariant of the engine: well-formed dictionaries, the
cache never holds more copies of a key than were submitted, `counter`
and `error` share their key set, every tracked key `k` satisfies
`counter[k] ≤ flushedCount k ≤ counter[k] + error[k]`, and every
untracked key satisfies `flushedCount k ≤ _nbucket`. -/
def Inv (s : LCState α) (t : List α) : Prop :=
  WF s ∧
  (∀ k, getD0 s.cache_counter k ≤ t.count k) ∧
  (∀ k, memk s.counter k = memk s.error k) ∧
  (∀ k, memk s.counter k = true →
      getD0 s.counter k ≤ flushedCount s t k ∧
      flushedCount s t k ≤ getD0 s.counter k + getD0 s.error k) ∧
  (∀ k, memk s.counter k = false → flushedCount s t k ≤ s.nbucket)

section AssocLemmas

theorem lookup_setk_self (l : List (α × Nat)) (k : α) (v : Nat) :
    lookup (setk l k v) k = some v := by
  induction l with
  | nil => simp [setk, lookup]
  | cons kv t ih =>
    by_cases h : kv.1 = k
    · simp [setk, h, lookup]
    · simp [setk, h, lookup, ih]

theorem lookup_setk_ne (l : List (α × Nat)) {k k' : α} (v : Nat)
    (h : k' ≠ k) : lookup (setk l k v) k' = lookup l k' := by
  have hkk : ¬ k = k' := fun hh => h hh.symm
  induction l with
  | nil => simp [setk, lookup, hkk]
  | cons kv t ih =>
    by_cases hk : kv.1 = k
    · subst hk
      simp [setk, lookup, hkk]
    · simp only [setk, if_neg hk, lookup, ih]

theorem getD0_setk (l : List (α × Nat)) (k k' : α) (v : Nat) :
    getD0 (setk l k v) k' = if k' = k then v else getD0 l k' := by
  by_cases h : k' = k
  · subst h; simp [getD0, lookup_setk_self]
  · simp [getD0, lookup_setk_ne l v h, h]

theorem memk_true_iff (l : List (α × Nat)) (k : α) :
    memk l k = true ↔ ∃ v, lookup l k = some v := by
  unfold memk
  cases lookup l k <;> simp

theorem memk_false_iff (l : List (α × Nat)) (k : α) :
    memk l k = false ↔ lookup l k = none := by
  unfold memk
  cases lookup l k <;> simp

theorem memk_iff_mem_keys (l : List (α × Nat)) (k : α) :
    memk l k = true ↔ k ∈ l.map Prod.fst := by
  induction l with
  | nil => simp [memk, lookup]
  | cons kv t ih =>
    by_cases h : kv.1 = k
    · simp [memk, lookup, h]
    · have hne : ¬ k = kv.1 := fun hh => h hh.symm
      simp only [memk, lookup, if_neg h, List.map_cons, List.mem_cons, hne,
        false_or]
      exact ih

theorem lookup_eq_none_of_not_mem_keys {l : List (α × Nat)} {k : α}
    (h : ¬ k ∈ l.map Prod.fst) : lookup l k = none := by
  rw [← memk_false_iff]
  cases hm : memk l k
  · rfl
  · exact absurd ((memk_iff_mem_keys l k).1 hm) h

theorem keys_setk (l : List (α × Nat)) (k : α) (v : Nat) :
    (setk l k v).map Prod.fst =
      if memk l k then l.map Prod.fst else l.map Prod.fst ++ [k] := by
  induction l with
  | nil => simp [setk, memk, lookup]
  | cons kv t ih =>
    by_cases h : kv.1 = k
    · have hmem : memk (kv :: t) k = true := by simp [memk, lookup, h]
      simp [setk, h, hmem]
    · have hmem : memk (kv :: t) k = memk t k := by
        simp [memk, lookup, h]
      rw [hmem]
      cases hmt : memk t k with
      | true => simp [setk, h, ih, hmt]
      | false => simp [setk, h, ih, hmt]

theorem nodup_keys_setk {l : List (α × Nat)} (k : α) (v : Nat)
    (h : (l.map Prod.fst).Nodup) : ((setk l k v).map Prod.fst).Nodup := by
  rw [keys_setk]
  by_cases hm : memk l k
  · simpa [hm] using h
  · have hk : ¬ k ∈ l.map Prod.fst := fun hc => by
      rw [(memk_iff_mem_keys l k).2 hc] at hm
      exact hm rfl
    simp only [hm, Bool.false_eq_true, if_false]
    refine List.nodup_append.2 ⟨h, List.nodup_singleton k, ?_⟩
    intro a ha hb
    rw [List.mem_singleton] at hb
    subst hb
    exact hk ha

theorem lookup_erasek_self (l : List (α × Nat)) (k : α) :
    lookup (erasek l k) k = none := by
  induction l with
  | nil => simp [erasek, lookup]
  | cons kv t ih =>
    by_cases h : kv.1 = k
    · simp [erasek, h, ih]
    · simp [erasek, h, lookup, ih]

theorem lookup_erasek_ne (l : List (α × Nat)) {k k' : α}
    (h : k' ≠ k) : lookup (erasek l k) k' = lookup l k' := by
  have hkk : ¬ k = k' := fun hh => h hh.symm
  induction l with
  | nil => simp [erasek]
  | cons kv t ih =>
    by_cases hk : kv.1 = k
    · subst hk
      simp [erasek, lookup, hkk, ih]
    · simp only [erasek, if_neg hk, lookup, ih]

theorem erasek_sublist (l : List (α × Nat)) (k : α) :
    (erasek l k).Sublist l := by
  induction l with
  | nil => simp [erasek]
  | cons kv t ih =>
    by_cases h : kv.1 = k
    · simp only [erasek, if_pos h]
      exact ih.trans (List.sublist_cons_self kv t)
    · simp only [erasek, if_neg h]
      exact ih.cons₂ kv

theorem lookup_foldl_erasek (ks : List α) (l : List (α × Nat)) (k : α) :
    lookup (ks.foldl erasek l) k = if k ∈ ks then none else lookup l k := by
  induction ks generalizing l with
  | nil => simp
  | cons k' ks ih =>
    by_cases h : k = k'
    · subst h
      by_cases hks : k ∈ ks
      · simp [ih, hks]
      · simp [ih, hks, lookup_erasek_self]
    · simp [ih, h, lookup_erasek_ne l h]

theorem getD0_counterUpdate (c : List (α × Nat)) (chunk : List α) (k : α) :
    getD0 (counterUpdate c chunk) k = getD0 c k + chunk.count k := by
  induction chunk generalizing c with
  | nil => simp [counterUpdate]
  | cons x xs ih =>
    show getD0 (counterUpdate (setk c x (getD0 c x + 1)) xs) k = _
    rw [ih, getD0_setk]
    by_cases h : k = x
    · subst h
      simp [List.count_cons]
      omega
    · have hbx : ¬ ((k == x) = true) := by simp [h]
      simp [List.count_cons, h, hbx]

theorem nodup_keys_counterUpdate {c : List (α × Nat)} (chunk : List α)
    (h : (c.map Prod.fst).Nodup) :
    ((counterUpdate c chunk).map Prod.fst).Nodup := by
  induction chunk generalizing c with
  | nil => exact h
  | cons x xs ih => exact ih (nodup_keys_setk x _ h)

theorem nodup_keys_erasek {l : List (α × Nat)} (k : α)
    (h : (l.map Prod.fst).Nodup) : ((erasek l k).map Prod.fst).Nodup :=
  ((erasek_sublist l k).map Prod.fst).nodup h

theorem nodup_keys_foldl_erasek (ks : List α) {l : List (α × Nat)}
    (h : (l.map Prod.fst).Nodup) :
    ((ks.foldl erasek l).map Prod.fst).Nodup := by
  induction ks generalizing l with
  | nil => exact h
  | cons k ks ih => exact ih (nodup_keys_erasek k h)

theorem erasek_eq_filter (l : List (α × Nat)) (k : α) :
    erasek l k = l.filter (fun kv => !(decide (kv.1 = k))) := by
  induction l with
  | nil => simp [erasek]
  | cons kv t ih =>
    by_cases h : kv.1 = k
    · simp [erasek, h, ih, List.filter_cons]
    · simp [erasek, h, ih, List.filter_cons]

theorem foldl_erasek_eq_filter (ks : List α) (l : List (α × Nat)) :
    ks.foldl erasek l = l.filter (fun kv => decide (¬ kv.1 ∈ ks)) := by
  induction ks generalizing l with
  | nil => simp
  | cons k ks ih =>
    show ks.foldl erasek (erasek l k) = _
    rw [ih, erasek_eq_filter, List.filter_filter]
    congr 1
    funext kv
    by_cases h1 : kv.1 = k
    · simp [h1]
    · by_cases h2 : kv.1 ∈ ks <;> simp [h1, h2]

theorem flatten_batchedList (n : Nat) (hn : n ≠ 0) (l : List α) :
    (batchedList l n).flatten = l := by
  have H : ∀ m, ∀ l : List α, l.length ≤ m → (batchedList l n).flatten = l := by
    intro m
    induction m with
    | zero =>
      intro l hl
      have : l = [] := List.eq_nil_of_length_eq_zero (Nat.le_zero.mp hl)
      subst this
      rw [batchedList]
      simp
    | succ m ih =>
      intro l hl
      by_cases hl0 : l = []
      · subst hl0
        rw [batchedList]
        simp
      · rw [batchedList, dif_neg (by tauto)]
        have hlen : (l.drop n).length ≤ m := by
          rw [List.length_drop]
          have : 0 < l.length := List.length_pos.2 hl0
          omega
        show (List.take n l :: batchedList (List.drop n l) n).flatten = l
        rw [List.flatten_cons, ih (l.drop n) hlen, List.take_append_drop]
  exact H l.length l le_rfl

end AssocLemmas

section FlushLemmas

theorem flushMergeStep_lookup_ne (cacheL : List (α × Nat)) (b nb : Nat)
    (ce : List (α × Nat) × List (α × Nat)) {k k' : α} (h : k ≠ k') :
    lookup (flushMergeStep cacheL b nb ce k').1 k = lookup ce.1 k ∧
    lookup (flushMergeStep cacheL b nb ce k').2 k = lookup ce.2 k := by
  unfold flushMergeStep
  by_cases h1 : memk ce.1 k'
  · simp [h1, lookup_setk_ne _ _ h]
  · by_cases h2 : b < getD0 cacheL k'
    · simp [h1, h2, lookup_setk_ne _ _ h]
    · simp [h1, h2]

theorem flushMerge_frame (cacheL : List (α × Nat)) (b nb : Nat)
    (ks : List α) (ce : List (α × Nat) × List (α × Nat)) {k : α}
    (hk : ¬ k ∈ ks) :
    lookup (ks.foldl (flushMergeStep cacheL b nb) ce).1 k = lookup ce.1 k ∧
    lookup (ks.foldl (flushMergeStep cacheL b nb) ce).2 k = lookup ce.2 k := by
  induction ks generalizing ce with
  | nil => exact ⟨rfl, rfl⟩
  | cons k' ks ih =>
    have hne : k ≠ k' := fun h => hk (by simp [h])
    have hks : ¬ k ∈ ks := fun h => hk (by simp [h])
    have hstep := flushMergeStep_lookup_ne cacheL b nb ce hne
    have hrec := ih (flushMergeStep cacheL b nb ce k') hks
    exact ⟨hrec.1.trans hstep.1, hrec.2.trans hstep.2⟩

theorem flushMerge_lookup (cacheL : List (α × Nat)) (b nb : Nat)
    (ks : List α) (hnd : ks.Nodup)
    (ce : List (α × Nat) × List (α × Nat)) {k : α} (hk : k ∈ ks) :
    (memk ce.1 k = true →
        lookup (ks.foldl (flushMergeStep cacheL b nb) ce).1 k
          = some (getD0 ce.1 k + getD0 cacheL k) ∧
        lookup (ks.foldl (flushMergeStep cacheL b nb) ce).2 k
          = lookup ce.2 k) ∧
    (memk ce.1 k = false → b < getD0 cacheL k →
        lookup (ks.foldl (flushMergeStep cacheL b nb) ce).1 k
          = some (getD0 cacheL k) ∧
        lookup (ks.foldl (flushMergeStep cacheL b nb) ce).2 k = some nb) ∧
    (memk ce.1 k = false → getD0 cacheL k ≤ b →
        lookup (ks.foldl (flushMergeStep cacheL b nb) ce).1 k
          = lookup ce.1 k ∧
        lookup (ks.foldl (flushMergeStep cacheL b nb) ce).2 k
          = lookup ce.2 k) := by
  induction ks generalizing ce with
  | nil => cases hk
  | cons k' ks ih =>
    rcases List.nodup_cons.1 hnd with ⟨hk'ks, hndks⟩
    by_cases he : k = k'
    · subst he
      have hfr := flushMerge_frame cacheL b nb ks
        (flushMergeStep cacheL b nb ce k) hk'ks
      refine ⟨fun hmem => ?_, fun hmem hgt => ?_, fun hmem hle => ?_⟩
      · have hstep : flushMergeStep cacheL b nb ce k
            = (setk ce.1 k (getD0 ce.1 k + getD0 cacheL k), ce.2) := by
          unfold flushMergeStep
          rw [if_pos hmem]
        refine ⟨hfr.1.trans ?_, hfr.2.trans ?_⟩
        · rw [hstep]
          exact lookup_setk_self _ _ _
        · rw [hstep]
      · have hstep : flushMergeStep cacheL b nb ce k
            = (setk ce.1 k (getD0 cacheL k), setk ce.2 k nb) := by
          unfold flushMergeStep
          rw [if_neg (by simp [hmem]), if_pos hgt]
        refine ⟨hfr.1.trans ?_, hfr.2.trans ?_⟩
        · rw [hstep]
          exact lookup_setk_self _ _ _
        · rw [hstep]
          exact lookup_setk_self _ _ _
      · have hstep : flushMergeStep cacheL b nb ce k = ce := by
          unfold flushMergeStep
          rw [if_neg (by simp [hmem]), if_neg (Nat.not_lt.2 hle)]
        refine ⟨hfr.1.trans ?_, hfr.2.trans ?_⟩
        · rw [hstep]
        · rw [hstep]
    · have hkm : k ∈ ks := by
        rcases List.mem_cons.1 hk with h | h
        · exact absurd h he
        · exact h
      have hne := flushMergeStep_lookup_ne cacheL b nb ce he
      have ihh := ih hndks (flushMergeStep cacheL b nb ce k') hkm
      have hm1 : memk (flushMergeStep cacheL b nb ce k').1 k
          = memk ce.1 k := by
        unfold memk
        rw [hne.1]
      have hg1 : getD0 (flushMergeStep cacheL b nb ce k').1 k
          = getD0 ce.1 k := by
        unfold getD0
        rw [hne.1]
      refine ⟨fun hmem => ?_, fun hmem hgt => ?_, fun hmem hle => ?_⟩
      · have hres := ihh.1 (by rw [hm1, hmem])
        rw [hg1] at hres
        exact ⟨hres.1, hres.2.trans hne.2⟩
      · have hres := ihh.2.1 (by rw [hm1, hmem]) hgt
        exact ⟨hres.1, hres.2⟩
      · have hres := ihh.2.2 (by rw [hm1, hmem]) hle
        exact ⟨hres.1.trans hne.1, hres.2.trans hne.2⟩

/-- Per-key behaviour of `flushMain` on any state whose cache has
distinct keys: accumulate tracked keys (error untouched), admit fresh
keys with cached count `> b` at error `_nbucket`, drop the rest. -/
theorem flushMain_lookup (s : LCState α)
    (hWF : (s.cache_counter.map Prod.fst).Nodup) (k : α) :
    (memk s.counter k = true →
        lookup (flushMain s).counter k
          = some (getD0 s.counter k + getD0 s.cache_counter k) ∧
        lookup (flushMain s).error k = lookup s.error k) ∧
    (memk s.counter k = false →
        s.cache_total / s.w < getD0 s.cache_counter k →
        lookup (flushMain s).counter k = some (getD0 s.cache_counter k) ∧
        lookup (flushMain s).error k = some s.nbucket) ∧
    (memk s.counter k = false →
        getD0 s.cache_counter k ≤ s.cache_total / s.w →
        lookup (flushMain s).counter k = lookup s.counter k ∧
        lookup (flushMain s).error k = lookup s.error k) := by
  by_cases hk : k ∈ s.cache_counter.map Prod.fst
  · exact flushMerge_lookup s.cache_counter (s.cache_total / s.w) s.nbucket
      (s.cache_counter.map Prod.fst) hWF (s.counter, s.error) hk
  · have h0 : getD0 s.cache_counter k = 0 := by
      unfold getD0
      rw [lookup_eq_none_of_not_mem_keys hk]
      rfl
    have hfr := flushMerge_frame s.cache_counter (s.cache_total / s.w)
      s.nbucket (s.cache_counter.map Prod.fst) (s.counter, s.error) hk
    refine ⟨fun hmem => ⟨?_, hfr.2⟩,
      fun hmem hgt => absurd hgt (by rw [h0]; exact Nat.not_lt_zero _),
      fun hmem hle => ⟨hfr.1, hfr.2⟩⟩
    obtain ⟨v, hv⟩ := (memk_true_iff _ _).1 hmem
    have hc : lookup (flushMain s).counter k = lookup s.counter k := hfr.1
    rw [hc, hv, h0]
    unfold getD0
    rw [hv]
    simp

end FlushLemmas

section PruneLemmas

theorem mem_pruneKeys_iff (s : LCState α) (k : α) :
    k ∈ pruneKeys s ↔ memk s.counter k = true ∧
      getD0 s.counter k + getD0 s.error k ≤ s.nbucket := by
  unfold pruneKeys
  rw [List.mem_filter, memk_iff_mem_keys]
  simp

theorem prune_counter_def (s : LCState α) :
    (prune s).counter = (pruneKeys s).foldl erasek s.counter := rfl

theorem prune_error_def (s : LCState α) :
    (prune s).error = (pruneKeys s).foldl erasek s.error := rfl

theorem prune_lookup (s : LCState α) (k : α) :
    lookup (prune s).counter k =
      (if memk s.counter k = true ∧
          getD0 s.counter k + getD0 s.error k ≤ s.nbucket
        then none else lookup s.counter k) ∧
    lookup (prune s).error k =
      (if memk s.counter k = true ∧
          getD0 s.counter k + getD0 s.error k ≤ s.nbucket
        then none else lookup s.error k) := by
  have hiff := mem_pruneKeys_iff s k
  rw [prune_counter_def, prune_error_def]
  constructor
  · rw [lookup_foldl_erasek]
    by_cases h : k ∈ pruneKeys s
    · rw [if_pos h, if_pos (hiff.1 h)]
    · rw [if_neg h, if_neg (fun hc => h (hiff.2 hc))]
  · rw [lookup_foldl_erasek]
    by_cases h : k ∈ pruneKeys s
    · rw [if_pos h, if_pos (hiff.1 h)]
    · rw [if_neg h, if_neg (fun hc => h (hiff.2 hc))]

theorem prune_counter_filter (s : LCState α) :
    (prune s).counter = s.counter.filter
      (fun kv => !(decide (getD0 s.counter kv.1 + getD0 s.error kv.1
        ≤ s.nbucket))) := by
  rw [prune_counter_def, foldl_erasek_eq_filter]
  apply List.filter_congr
  intro kv hkv
  have hmem : memk s.counter kv.1 = true :=
    (memk_iff_mem_keys _ _).2 (List.mem_map_of_mem Prod.fst hkv)
  by_cases hc : getD0 s.counter kv.1 + getD0 s.error kv.1 ≤ s.nbucket
  · simp [mem_pruneKeys_iff, hmem, hc]
  · simp [mem_pruneKeys_iff, hmem, hc]

theorem length_filter_map_fst (l : List (α × Nat)) (p : α → Bool) :
    ((l.map Prod.fst).filter p).length
      = (l.filter (fun kv => p kv.1)).length := by
  induction l with
  | nil => rfl
  | cons kv t ih =>
    by_cases h : p kv.1 = true
    · simp [List.filter_cons, h, ih]
    · simp [List.filter_cons, h, ih]

end PruneLemmas

section InvLemmas

theorem flush_eq (s : LCState α) :
    flush s = if (flushMain s).prune_limit ≤ (flushMain s).counter.length
      then prune (flushMain s) else flushMain s := rfl

theorem cache_eq (s : LCState α) (chunk : List α) :
    cache s chunk =
      if (cacheAdd s chunk).flush_limit ≤ (cacheAdd s chunk).cache_total
      then flush (cacheAdd s chunk) else cacheAdd s chunk := rfl

theorem count_eq (s : LCState α) (iterable : List α) (cs : Option Nat) :
    count s iterable cs =
      if (flush ((batchedList iterable (cs.getD s.flush_limit)).foldl
            cache s)).counter.length
          < (flush ((batchedList iterable (cs.getD s.flush_limit)).foldl
            cache s)).prune_limit
      then prune (flush ((batchedList iterable
            (cs.getD s.flush_limit)).foldl cache s))
      else flush ((batchedList iterable
            (cs.getD s.flush_limit)).foldl cache s) := rfl

theorem nodup_flushMerge (cacheL : List (α × Nat)) (b nb : Nat)
    (ks : List α) (ce : List (α × Nat) × List (α × Nat))
    (h1 : (ce.1.map Prod.fst).Nodup) (h2 : (ce.2.map Prod.fst).Nodup) :
    ((ks.foldl (flushMergeStep cacheL b nb) ce).1.map Prod.fst).Nodup ∧
    ((ks.foldl (flushMergeStep cacheL b nb) ce).2.map Prod.fst).Nodup := by
  induction ks generalizing ce with
  | nil => exact ⟨h1, h2⟩
  | cons k ks ih =>
    have hstep :
        ((flushMergeStep cacheL b nb ce k).1.map Prod.fst).Nodup ∧
        ((flushMergeStep cacheL b nb ce k).2.map Prod.fst).Nodup := by
      unfold flushMergeStep
      by_cases hc1 : memk ce.1 k
      · simpa [hc1] using ⟨nodup_keys_setk _ _ h1, h2⟩
      · by_cases hc2 : b < getD0 cacheL k
        · simpa [hc1, hc2] using
            ⟨nodup_keys_setk _ _ h1, nodup_keys_setk _ _ h2⟩
        · simpa [hc1, hc2] using ⟨h1, h2⟩
    exact ih _ hstep.1 hstep.2

theorem WF_cacheAdd {s : LCState α} (chunk : List α) (h : WF s) :
    WF (cacheAdd s chunk) :=
  ⟨nodup_keys_counterUpdate chunk h.1, h.2.1, h.2.2⟩

theorem WF_flushMain {s : LCState α} (h : WF s) : WF (flushMain s) := by
  have hm := nodup_flushMerge s.cache_counter (s.cache_total / s.w)
    s.nbucket (s.cache_counter.map Prod.fst) (s.counter, s.error)
    h.2.1 h.2.2
  exact ⟨List.nodup_nil, hm.1, hm.2⟩

theorem WF_prune {s : LCState α} (h : WF s) : WF (prune s) :=
  ⟨h.1, nodup_keys_foldl_erasek _ h.2.1, nodup_keys_foldl_erasek _ h.2.2⟩

theorem WF_flush {s : LCState α} (h : WF s) : WF (flush s) := by
  rw [flush_eq]
  by_cases hc : (flushMain s).prune_limit ≤ (flushMain s).counter.length
  · rw [if_pos hc]
    exact WF_prune (WF_flushMain h)
  · rw [if_neg hc]
    exact WF_flushMain h

theorem Inv_cacheAdd {s : LCState α} {t : List α} (chunk : List α)
    (h : Inv s t) : Inv (cacheAdd s chunk) (t ++ chunk) := by
  obtain ⟨hWF, hc, hk, htr, hun⟩ := h
  have hcc : ∀ k, getD0 (cacheAdd s chunk).cache_counter k
      = getD0 s.cache_counter k + chunk.count k :=
    fun k => getD0_counterUpdate _ _ _
  have hfc : ∀ k, flushedCount (cacheAdd s chunk) (t ++ chunk) k
      = flushedCount s t k := by
    intro k
    unfold flushedCount
    rw [hcc, List.count_append]
    omega
  refine ⟨WF_cacheAdd chunk hWF, ?_, hk, ?_, ?_⟩
  · intro k
    rw [hcc, List.count_append]
    have := hc k
    omega
  · intro k hm
    rw [hfc]
    exact htr k hm
  · intro k hm
    rw [hfc]
    exact hun k hm

theorem Inv_flushMain {s : LCState α} {t : List α} (h : Inv s t) :
    Inv (flushMain s) t := by
  obtain ⟨hWF, hc, hk, htr, hun⟩ := h
  have hlk := fun k => flushMain_lookup s hWF.1 k
  have hfc : ∀ k, flushedCount (flushMain s) t k = t.count k := by
    intro k
    show t.count k - getD0 [] k = t.count k
    simp [getD0, lookup]
  have hsum : ∀ k, t.count k
      = flushedCount s t k + getD0 s.cache_counter k := by
    intro k
    unfold flushedCount
    have := hc k
    omega
  refine ⟨WF_flushMain hWF, ?_, ?_, ?_, ?_⟩
  · intro k
    show getD0 [] k ≤ _
    simp [getD0, lookup]
  · intro k
    cases hm : memk s.counter k with
    | true =>
      obtain ⟨h1, h2⟩ := (hlk k).1 hm
      have : memk (flushMain s).counter k = true := by
        rw [memk_true_iff]
        exact ⟨_, h1⟩
      rw [this]
      have he : memk s.error k = true := (hk k) ▸ hm
      unfold memk
      rw [h2]
      exact ((memk_true_iff _ _).1 he).choose_spec ▸ rfl
    | false =>
      by_cases hgt : s.cache_total / s.w < getD0 s.cache_counter k
      · obtain ⟨h1, h2⟩ := (hlk k).2.1 hm hgt
        unfold memk
        rw [h1, h2]
        rfl
      · obtain ⟨h1, h2⟩ := (hlk k).2.2 hm (Nat.not_lt.1 hgt)
        have hcn : lookup s.counter k = none := (memk_false_iff _ _).1 hm
        have hen : lookup s.error k = none :=
          (memk_false_iff _ _).1 ((hk k) ▸ hm)
        unfold memk
        rw [h1, h2, hcn, hen]
  · intro k hmem
    rw [hfc, hsum k]
    cases hm : memk s.counter k with
    | true =>
      obtain ⟨h1, h2⟩ := (hlk k).1 hm
      have hg1 : getD0 (flushMain s).counter k
          = getD0 s.counter k + getD0 s.cache_counter k := by
        unfold getD0
        rw [h1]
        rfl
      have hg2 : getD0 (flushMain s).error k = getD0 s.error k := by
        unfold getD0
        rw [h2]
      obtain ⟨hl, hu⟩ := htr k hm
      rw [hg1, hg2]
      omega
    | false =>
      by_cases hgt : s.cache_total / s.w < getD0 s.cache_counter k
      · obtain ⟨h1, h2⟩ := (hlk k).2.1 hm hgt
        have hg1 : getD0 (flushMain s).counter k
            = getD0 s.cache_counter k := by
          unfold getD0
          rw [h1]
          rfl
        have hg2 : getD0 (flushMain s).error k = s.nbucket := by
          unfold getD0
          rw [h2]
          rfl
        have := hun k hm
        rw [hg1, hg2]
        omega
      · obtain ⟨h1, h2⟩ := (hlk k).2.2 hm (Nat.not_lt.1 hgt)
        have : memk (flushMain s).counter k = false := by
          rw [memk_false_iff, h1]
          exact (memk_false_iff _ _).1 hm
        rw [hmem] at this
        cases this
  · intro k hmem
    rw [hfc, hsum k]
    show _ ≤ s.nbucket + s.cache_total / s.w
    cases hm : memk s.counter k with
    | true =>
      obtain ⟨h1, h2⟩ := (hlk k).1 hm
      have : memk (flushMain s).counter k = true := by
        rw [memk_true_iff]
        exact ⟨_, h1⟩
      rw [hmem] at this
      cases this
    | false =>
      by_cases hgt : s.cache_total / s.w < getD0 s.cache_counter k
      · obtain ⟨h1, h2⟩ := (hlk k).2.1 hm hgt
        have : memk (flushMain s).counter k = true := by
          rw [memk_true_iff]
          exact ⟨_, h1⟩
        rw [hmem] at this
        cases this
      · have hle := Nat.not_lt.1 hgt
        have := hun k hm
        omega

theorem Inv_prune {s : LCState α} {t : List α} (h : Inv s t) :
    Inv (prune s) t := by
  obtain ⟨hWF, hc, hk, htr, hun⟩ := h
  have hlk := fun k => prune_lookup s k
  have hfc : ∀ k, flushedCount (prune s) t k = flushedCount s t k :=
    fun k => rfl
  refine ⟨WF_prune hWF, hc, ?_, ?_, ?_⟩
  · intro k
    obtain ⟨h1, h2⟩ := hlk k
    by_cases hco : memk s.counter k = true ∧
        getD0 s.counter k + getD0 s.error k ≤ s.nbucket
    · rw [if_pos hco] at h1 h2
      unfold memk
      rw [h1, h2]
    · rw [if_neg hco] at h1 h2
      unfold memk
      rw [h1, h2]
      exact congrArg Option.isSome
        (congrArg _ rfl) |>.trans (hk k) |>.trans rfl
  · intro k hmem
    obtain ⟨h1, h2⟩ := hlk k
    by_cases hco : memk s.counter k = true ∧
        getD0 s.counter k + getD0 s.error k ≤ s.nbucket
    · rw [if_pos hco] at h1
      have : memk (prune s).counter k = false := by
        rw [memk_false_iff]
        exact h1
      rw [hmem] at this
      cases this
    · rw [if_neg hco] at h1 h2
      have hm : memk s.counter k = true := by
        rw [memk_true_iff] at hmem ⊢
        rwa [h1] at hmem
      have hg1 : getD0 (prune s).counter k = getD0 s.counter k := by
        unfold getD0
        rw [h1]
      have hg2 : getD0 (prune s).error k = getD0 s.error k := by
        unfold getD0
        rw [h2]
      rw [hfc, hg1, hg2]
      exact htr k hm
  · intro k hmem
    obtain ⟨h1, h2⟩ := hlk k
    show flushedCount (prune s) t k ≤ s.nbucket
    rw [hfc]
    by_cases hco : memk s.counter k = true ∧
        getD0 s.counter k + getD0 s.error k ≤ s.nbucket
    · have := (htr k hco.1).2
      have := hco.2
      omega
    · rw [if_neg hco] at h1
      have hm : memk s.counter k = false := by
        rw [memk_false_iff] at hmem ⊢
        rwa [h1] at hmem
      exact hun k hm

theorem Inv_flush {s : LCState α} {t : List α} (h : Inv s t) :
    Inv (flush s) t := by
  rw [flush_eq]
  by_cases hc : (flushMain s).prune_limit ≤ (flushMain s).counter.length
  · rw [if_pos hc]
    exact Inv_prune (Inv_flushMain h)
  · rw [if_neg hc]
    exact Inv_flushMain h

theorem Inv_cache {s : LCState α} {t : List α} (chunk : List α)
    (h : Inv s t) : Inv (cache s chunk) (t ++ chunk) := by
  rw [cache_eq]
  by_cases hc : (cacheAdd s chunk).flush_limit
      ≤ (cacheAdd s chunk).cache_total
  · rw [if_pos hc]
    exact Inv_flush (Inv_cacheAdd chunk h)
  · rw [if_neg hc]
    exact Inv_cacheAdd chunk h

theorem Inv_foldl_cache (bs : List (List α)) {s : LCState α}
    {t : List α} (h : Inv s t) :
    Inv (bs.foldl cache s) (t ++ bs.flatten) := by
  induction bs generalizing s t with
  | nil =>
    simpa using h
  | cons c bs ih =>
    show Inv (bs.foldl cache (cache s c)) _
    rw [List.flatten_cons, ← List.append_assoc]
    exact ih (Inv_cache c h)

theorem Inv_count {s : LCState α} {t : List α} (iterable : List α)
    (cs : Option Nat) (hcs : 1 ≤ cs.getD s.flush_limit) (h : Inv s t) :
    Inv (count s iterable cs) (t ++ iterable) := by
  have h1 := Inv_foldl_cache (batchedList iterable (cs.getD s.flush_limit)) h
  rw [flatten_batchedList _ (by omega) iterable] at h1
  have h2 := Inv_flush h1
  rw [count_eq]
  by_cases hc : (flush ((batchedList iterable
      (cs.getD s.flush_limit)).foldl cache s)).counter.length
      < (flush ((batchedList iterable
      (cs.getD s.flush_limit)).foldl cache s)).prune_limit
  · rw [if_pos hc]
    exact Inv_prune h2
  · rw [if_neg hc]
    exact h2

theorem Inv_init (eps : ℚ) (w pl fl : Nat) :
    Inv ({ eps := eps, w := w, prune_limit := pl, flush_limit := fl,
           cache_counter := [], cache_total := 0, counter := [],
           error := [], nbucket := 0, total := 0 } : LCState α) [] := by
  refine ⟨⟨by simp, by simp, by simp⟩, ?_, ?_, ?_, ?_⟩
  · intro k
    simp [getD0, lookup]
  · intro k
    rfl
  · intro k hm
    simp [memk, lookup] at hm
  · intro k hm
    simp [flushedCount, getD0, lookup]

/-- Every reachable state satisfies the engine invariant `Inv` with
respect to the stream submitted so far. -/
theorem reaches_inv {s : LCState α} {t : List α} (h : Reaches s t) :
    Inv s t := by
  induction h with
  | init eps w pl fl hw => exact Inv_init eps w pl fl
  | cacheS chunk _ ih => exact Inv_cache chunk ih
  | flushS _ ih => exact Inv_flush ih
  | pruneS _ ih => exact Inv_prune ih
  | countS iterable cs hcs _ ih => exact Inv_count iterable cs hcs ih

end InvLemmas

section Demo

/-- Construction with a positive `eps` is an instance of the generic
initial state admitted by `Reaches.init`. -/
theorem reaches_initL (eps : ℚ) (pl fl : Option Nat)
    (h : 1 ≤ (ceilInv eps).toNat) :
    Reaches (initL eps pl fl : LCState α) [] :=
  Reaches.init eps ((ceilInv eps).toNat)
    (pl.getD (10 * (ceilInv eps).toNat))
    (fl.getD (10 * (ceilInv eps).toNat)) h

/-- The engine of the spec's worked example: `eps = 0.1` (so `w = 10`),
`flush_limit = 10`, default `prune_limit = 100`. -/
def demoInit : LCState String := initL (Rat.divInt 1 10) none (some 10)

/-- The worked example's single batch of ten items. -/
def demoBatch : List String :=
  ["a", "a", "a", "a", "a", "b", "c", "d", "e", "f"]

/-- The state after the one `cache` call of the worked example (which
triggers an implicit flush). -/
def demoS : LCState String := cache demoInit demoBatch

theorem demo_reaches : Reaches demoS demoBatch := by
  have h0 : Reaches demoInit [] :=
    reaches_initL (Rat.divInt 1 10) none (some 10) (by decide)
  have h1 := Reaches.cacheS demoBatch h0
  simpa using h1

/-- A state with a nonempty batch cache on top of `demoS`, used to
exercise the flush characterisation. -/
def demoCacheS : LCState String := cacheAdd demoS ["a", "b"]

/-- A tiny hand-built state for exercising the query layer:
`"a"` tracked with count `3` and error `1`, two buckets elapsed. -/
def qdemo : LCState String :=
  { eps := Rat.divInt 1 10, w := 10, prune_limit := 100, flush_limit := 10,
    cache_counter := [], cache_total := 0,
    counter := [("a", 3)], error := [("a", 1)], nbucket := 2, total := 20 }

/-- A tiny engine (`w = 2`, `prune_limit = 2`, `flush_limit = 3`) whose
second flush fills the table to exactly `prune_limit` entries, none of
them prunable. -/
def smallInit : LCState String :=
  { eps := Rat.divInt 1 2, w := 2, prune_limit := 2, flush_limit := 3,
    cache_counter := [], cache_total := 0, counter := [], error := [],
    nbucket := 0, total := 0 }

/-- State `smallInit` after one `cache(["a","a","a"])` call (flushes, admits
`"a"`). -/
def smallS1 : LCState String := cache smallInit ["a", "a", "a"]

/-- The pre-prune state inside the flush triggered by the second cache
call `cache(["b","b","b"])` on `smallS1`. -/
def smallM : LCState String := flushMain (cacheAdd smallS1 ["b", "b", "b"])

end Demo

section Claims

/-- C1 (amended): for every item `k`, at every reachable point at which
the Batch Cache is empty — in particular immediately after any flush —
the `getBounds` lower bound (`counter[k]`, default `0`) is at most the
true count of `k` in the submitted stream, which is at most the
`getBounds` upper bound (`counter[k] + error[k]`, default `bucket_id`).
Equivalently, at every point the bounds hold for the flushed portion of
the stream; they do NOT hold for items still sitting in the cache
(see the counterexample). -/
theorem claim_c1_bound_soundness {s : LCState α} {t : List α}
    (h : Reaches s t) (hcache : s.cache_counter = []) (k : α) :
    getBounds s [k] = [(k, getD0 s.counter k,
      getD0 s.counter k + (lookup s.error k).getD s.nbucket)] ∧
    getD0 s.counter k ≤ t.count k ∧
    t.count k ≤ getD0 s.counter k + (lookup s.error k).getD s.nbucket := by
  obtain ⟨hWF, hc, hk, htr, hun⟩ := reaches_inv h
  have hfc : flushedCount s t k = t.count k := by
    unfold flushedCount
    rw [hcache]
    show t.count k - getD0 [] k = _
    simp [getD0, lookup]
  have hb : getD0 s.counter k ≤ t.count k ∧
      t.count k ≤ getD0 s.counter k + (lookup s.error k).getD s.nbucket := by
    cases hm : memk s.counter k with
    | true =>
      obtain ⟨hl, hu⟩ := htr k hm
      rw [hfc] at hl hu
      obtain ⟨v, hv⟩ := (memk_true_iff _ _).1 ((hk k) ▸ hm)
      have hgd : (lookup s.error k).getD s.nbucket = getD0 s.error k := by
        unfold getD0
        rw [hv]
        rfl
      rw [hgd]
      exact ⟨hl, hu⟩
    | false =>
      have hcn : lookup s.counter k = none := (memk_false_iff _ _).1 hm
      have hen : lookup s.error k = none :=
        (memk_false_iff _ _).1 ((hk k) ▸ hm)
      have h0 : getD0 s.counter k = 0 := by
        unfold getD0
        rw [hcn]
        rfl
      have hub := hun k hm
      rw [hfc] at hub
      rw [h0, hen]
      simpa using hub
  exact ⟨rfl, hb.1, hb.2⟩

/-- C1 witness: in the worked example the bounds for `"a"` contain its
true submitted count. -/
theorem claim_c1_bound_soundness_witness :
    demoS.cache_counter = ([] : List (String × Nat)) ∧
    getD0 demoS.counter "a" ≤ demoBatch.count "a" ∧
    demoBatch.count "a" ≤ getD0 demoS.counter "a"
      + (lookup demoS.error "a").getD demoS.nbucket :=
  ⟨by decide, (claim_c1_bound_soundness demo_reaches (by decide) "a").2.1,
    (claim_c1_bound_soundness demo_reaches (by decide) "a").2.2⟩

/-- C1 counterexample to the claim as stated: after the worked example's
flush, cache five further copies of `"b"` (no flush fires). The point is
"after at least one flush" and `"b"` has been submitted `6` times in
total, yet the query upper bound for `"b"` is `bucket_id = 1 < 6`: the
bounds do not cover the portion of the stream still in the Batch
Cache. -/
theorem claim_c1_counterexample :
    Reaches (cache demoS ["b", "b", "b", "b", "b"])
      (demoBatch ++ ["b", "b", "b", "b", "b"]) ∧
    (cache demoS ["b", "b", "b", "b", "b"]).nbucket = 1 ∧
    getBounds (cache demoS ["b", "b", "b", "b", "b"]) ["b"]
      = [("b", 0, 1)] ∧
    (demoBatch ++ ["b", "b", "b", "b", "b"]).count "b" = 6 ∧
    ¬ ((6 : Nat) ≤ 1) :=
  ⟨Reaches.cacheS _ demo_reaches, by decide, by decide, by decide, by decide⟩

/-- C2: on any state with well-formed dictionaries, `flush` computes
`b = batch_total / w` (floor); every key already in the Frequency Table
gets its cached count added (error untouched); every absent key with
cached count `> b` is inserted with `error = ` the pre-advance
`bucket_id`; every other key is discarded; `bucket_id` grows by `b`,
`total` by the batch total; the cache is emptied; and pruning runs
exactly when the resulting table size reaches `prune_limit`. -/
theorem claim_c2_flush_spec (s : LCState α) (hWF : WF s) :
    (∀ k, memk s.counter k = true →
        lookup (flushMain s).counter k
          = some (getD0 s.counter k + getD0 s.cache_counter k) ∧
        lookup (flushMain s).error k = lookup s.error k) ∧
    (∀ k, memk s.counter k = false →
        s.cache_total / s.w < getD0 s.cache_counter k →
        lookup (flushMain s).counter k = some (getD0 s.cache_counter k) ∧
        lookup (flushMain s).error k = some s.nbucket) ∧
    (∀ k, memk s.counter k = false →
        getD0 s.cache_counter k ≤ s.cache_total / s.w →
        lookup (flushMain s).counter k = none ∧
        lookup (flushMain s).error k = lookup s.error k) ∧
    (flushMain s).nbucket = s.nbucket + s.cache_total / s.w ∧
    (flushMain s).total = s.total + s.cache_total ∧
    (flushMain s).cache_counter = [] ∧
    (flushMain s).cache_total = 0 ∧
    flush s = (if (flushMain s).prune_limit ≤ (flushMain s).counter.length
      then prune (flushMain s) else flushMain s) := by
  refine ⟨fun k hm => (flushMain_lookup s hWF.1 k).1 hm,
    fun k hm hgt => (flushMain_lookup s hWF.1 k).2.1 hm hgt,
    fun k hm hle => ?_, rfl, rfl, rfl, rfl, rfl⟩
  obtain ⟨h1, h2⟩ := (flushMain_lookup s hWF.1 k).2.2 hm hle
  exact ⟨h1.trans ((memk_false_iff _ _).1 hm), h2⟩

/-- C2 witness: flushing two cached items on top of the worked example
accumulates the tracked key `"a"` from `5` to `6`. -/
theorem claim_c2_flush_spec_witness :
    WF demoCacheS ∧ lookup (flushMain demoCacheS).counter "a" = some 6 := by
  refine ⟨by decide, ?_⟩
  have h := (claim_c2_flush_spec demoCacheS (by decide)).1 "a" (by decide)
  exact h.1.trans (by decide)

/-- C3: `prune` removes from the Frequency Table exactly the entries
with `counter[k] + error[k] ≤ bucket_id` (boundary inclusive), removes
the matching `error` entries, and changes nothing else in the engine
state. -/
theorem claim_c3_prune_exact (s : LCState α) (k : α) :
    (lookup (prune s).counter k =
      if memk s.counter k = true ∧
          getD0 s.counter k + getD0 s.error k ≤ s.nbucket
        then none else lookup s.counter k) ∧
    (lookup (prune s).error k =
      if memk s.counter k = true ∧
          getD0 s.counter k + getD0 s.error k ≤ s.nbucket
        then none else lookup s.error k) ∧
    (prune s).cache_counter = s.cache_counter ∧
    (prune s).cache_total = s.cache_total ∧
    (prune s).nbucket = s.nbucket ∧
    (prune s).total = s.total ∧
    (prune s).w = s.w ∧
    (prune s).eps = s.eps ∧
    (prune s).prune_limit = s.prune_limit ∧
    (prune s).flush_limit = s.flush_limit :=
  ⟨(prune_lookup s k).1, (prune_lookup s k).2,
    rfl, rfl, rfl, rfl, rfl, rfl, rfl, rfl⟩

/-- C4 (amended): immediately after any pruning call the Frequency
Table retains exactly its entries with `count + error > bucket_id`, so
its size equals the number of such entries; it is `< prune_limit`
exactly when fewer than `prune_limit` entries beat that bound — which
can fail even though no single flush admits `prune_limit` entries (see
the counterexample). -/
theorem claim_c4_prune_size (s : LCState α) :
    (prune s).counter.length
      = ((s.counter.map Prod.fst).filter
          (fun k => !(decide (getD0 s.counter k + getD0 s.error k
            ≤ s.nbucket)))).length ∧
    ((prune s).counter.length < s.prune_limit ↔
      ((s.counter.map Prod.fst).filter
          (fun k => !(decide (getD0 s.counter k + getD0 s.error k
            ≤ s.nbucket)))).length < s.prune_limit) := by
  have h : (prune s).counter.length
      = ((s.counter.map Prod.fst).filter
          (fun k => !(decide (getD0 s.counter k + getD0 s.error k
            ≤ s.nbucket)))).length := by
    rw [prune_counter_filter s]
    exact (length_filter_map_fst s.counter
      (fun k => !(decide (getD0 s.counter k + getD0 s.error k
        ≤ s.nbucket)))).symm
  exact ⟨h, by rw [h]⟩

/-- C4 counterexample to the claim as stated: on the two-flush run of
the tiny engine (`prune_limit = 2`), the second flush reaches a table of
size `2 ≥ prune_limit` and triggers pruning, which removes nothing;
immediately after that pruning call the table size is `2`, not
`< prune_limit` — although neither flush admitted `prune_limit = 2`
entries (sizes went `0 → 1 → 2`), and the run is reachable from
construction. -/
theorem claim_c4_counterexample :
    Reaches (cache smallS1 ["b", "b", "b"])
      (["a", "a", "a"] ++ ["b", "b", "b"]) ∧
    cache smallS1 ["b", "b", "b"] = prune smallM ∧
    smallM.prune_limit ≤ smallM.counter.length ∧
    smallM.prune_limit = 2 ∧
    (prune smallM).counter.length = 2 ∧
    ¬ ((prune smallM).counter.length < smallM.prune_limit) ∧
    smallInit.counter.length = 0 ∧ smallS1.counter.length = 1 :=
  ⟨Reaches.cacheS _ (Reaches.cacheS _
      (Reaches.init (Rat.divInt 1 2) 2 2 3 (by decide))),
    by decide, by decide, by decide, by decide, by decide, by decide,
    by decide⟩

/-- C5: the spec's worked example. With `eps = 0.1` (`w = 10`) and
`flush_limit = 10`, one `cache` call with the ten-item batch triggers a
flush, after which `bucket_id = 1` (so `b = 1`), `"a"` is tracked with
count `5` and error `0`, `"b"`..`"f"` are not tracked,
`getBounds(["a"]) = {lower: 5, upper: 5}` and
`getBounds(["b"]) = {lower: 0, upper: 1}`. -/
theorem claim_c5_concrete_scenario :
    demoS.nbucket = 1 ∧ demoS.total = 10 ∧
    demoS.cache_counter = ([] : List (String × Nat)) ∧
    demoS.cache_total = 0 ∧
    lookup demoS.counter "a" = some 5 ∧
    lookup demoS.error "a" = some 0 ∧
    lookup demoS.counter "b" = none ∧ lookup demoS.counter "c" = none ∧
    lookup demoS.counter "d" = none ∧ lookup demoS.counter "e" = none ∧
    lookup demoS.counter "f" = none ∧
    getBounds demoS ["a"] = [("a", 5, 5)] ∧
    getBounds demoS ["b"] = [("b", 0, 1)] := by
  decide

/-- C6 (amended): construction performs no validation at all — it
raises nothing for `eps` outside `(0, 1]` or for limits `< 1`; its only
failure is `ZeroDivisionError` at `eps = 0`; there is no
`InvalidConfiguration` exception. Separately, the `batched` utility
raises `ValueError` when its batch size is `< 1`. -/
theorem claim_c6_init_no_validation (eps : ℚ) (pl fl : Option Int)
    (n : Int) (l : List Nat) :
    (eps ≠ 0 → ∃ c, lossyCounterInit eps pl fl = Except.ok c) ∧
    lossyCounterInit 0 pl fl = Except.error PyError.zeroDivisionError ∧
    (n < 1 → batchedGen l n = Except.error PyError.valueError) ∧
    (1 ≤ n → ∃ bs, batchedGen l n = Except.ok bs) := by
  refine ⟨fun h => ?_, ?_, fun h => ?_, fun h => ?_⟩
  · unfold lossyCounterInit
    rw [if_neg h]
    exact ⟨_, rfl⟩
  · unfold lossyCounterInit
    rw [if_pos rfl]
  · unfold batchedGen
    rw [if_pos h]
  · unfold batchedGen
    rw [if_neg (by omega)]
    exact ⟨_, rfl⟩

/-- C6 witness: `eps = 2` constructs successfully, `batched` with size
`0` raises `ValueError`, with size `2` succeeds. -/
theorem claim_c6_init_no_validation_witness :
    (∃ c, lossyCounterInit 2 none none = Except.ok c) ∧
    batchedGen ([1, 2, 3] : List Nat) 0 = Except.error PyError.valueError ∧
    (∃ bs, batchedGen ([1, 2, 3] : List Nat) 2 = Except.ok bs) :=
  ⟨(claim_c6_init_no_validation 2 none none 0 [1, 2, 3]).1 (by decide),
    (claim_c6_init_no_validation 2 none none 0 [1, 2, 3]).2.2.1 (by decide),
    (claim_c6_init_no_validation 2 none none 2 [1, 2, 3]).2.2.2 (by decide)⟩

/-- C6 counterexample to the claim as stated: `eps = 2` is outside
`(0, 1]` yet construction succeeds without raising; limits `0` and `-5`
are `< 1` yet accepted. -/
theorem claim_c6_counterexample :
    lossyCounterInit 2 none none
      = Except.ok { eps := 2, w := 1, prune_limit := 10, flush_limit := 10 } ∧
    lossyCounterInit 1 (some 0) (some (-5))
      = Except.ok { eps := 1, w := 1, prune_limit := 0, flush_limit := -5 } :=
  ⟨rfl, rfl⟩

/-- C7: `getCounts` and `getFreqItems` raise (`NotImplementedError`,
the spec's `UnsupportedApproximation`) exactly when the mode is outside
`{lower, upper, median}`, and such a rejected call leaves the entire
engine state unmodified. -/
theorem claim_c7_unsupported_approximation (s : LCState α)
    (keys : List α) (th : Option ℚ) (approx : String) :
    ((∃ e, getCounts s keys approx = Except.error e) ↔
      ¬ (approx = "lower" ∨ approx = "upper" ∨ approx = "median")) ∧
    ((∃ e, getFreqItems s th approx = Except.error e) ↔
      ¬ (approx = "lower" ∨ approx = "upper" ∨ approx = "median")) ∧
    (runQuery s (QueryCall.getCounts keys approx)).2 = s ∧
    (runQuery s (QueryCall.getFreqItems th approx)).2 = s := by
  refine ⟨?_, ?_, rfl, rfl⟩ <;>
  · by_cases h1 : approx = "lower"
    · simp [getCounts, getFreqItems, h1]
    · by_cases h2 : approx = "upper"
      · simp [getCounts, getFreqItems, h1, h2]
      · by_cases h3 : approx = "median"
        · simp [getCounts, getFreqItems, h1, h2, h3]
        · constructor
          · intro _
            simp [h1, h2, h3]
          · intro _
            exact ⟨QueryError.notImplementedError,
              by simp [getCounts, getFreqItems, h1, h2, h3]⟩

/-- C8: for every key and every state, the value `getCounts` returns in
`median` mode is exactly the average of the `lower`- and `upper`-mode
values. -/
theorem claim_c8_median_consistency (s : LCState α) (k : α) (l u m : ℚ)
    (hl : getCounts s [k] "lower" = Except.ok [(k, l)])
    (hu : getCounts s [k] "upper" = Except.ok [(k, u)])
    (hm : getCounts s [k] "median" = Except.ok [(k, m)]) :
    m = (l + u) / 2 := by
  unfold getCounts at hl hu hm
  rw [if_pos rfl] at hl
  rw [if_neg (by decide), if_pos rfl] at hu
  rw [if_neg (by decide), if_neg (by decide), if_pos rfl] at hm
  simp only [List.map_cons, List.map_nil, Except.ok.injEq,
    List.cons.injEq, Prod.mk.injEq, true_and, and_true] at hl hu hm
  cases hmem : memk s.counter k with
  | true =>
    rw [hmem] at hl hu hm
    rw [if_pos rfl] at hl hu hm
    subst hl hu hm
    ring
  | false =>
    rw [hmem] at hl hu hm
    rw [if_neg (by decide)] at hl hu hm
    subst hl hu hm
    ring

/-- C8 witness: on the hand-built state, `"a"` has lower `3`, upper
`4`, median `7/2 = (3 + 4)/2`. -/
theorem claim_c8_median_consistency_witness :
    getCounts qdemo ["a"] "lower" = Except.ok [("a", (3 : ℚ))] ∧
    getCounts qdemo ["a"] "upper" = Except.ok [("a", (4 : ℚ))] ∧
    getCounts qdemo ["a"] "median" = Except.ok [("a", (7/2 : ℚ))] ∧
    (7/2 : ℚ) = (3 + 4) / 2 := by
  have hl : getCounts qdemo ["a"] "lower" = Except.ok [("a", (3 : ℚ))] := by
    unfold getCounts
    rw [if_pos rfl]
    norm_num [qdemo, memk, lookup, getD0]
  have hu : getCounts qdemo ["a"] "upper" = Except.ok [("a", (4 : ℚ))] := by
    unfold getCounts
    rw [if_neg (by decide), if_pos rfl]
    norm_num [qdemo, memk, lookup, getD0]
  have hm : getCounts qdemo ["a"] "median"
      = Except.ok [("a", (7/2 : ℚ))] := by
    unfold getCounts
    rw [if_neg (by decide), if_neg (by decide), if_pos rfl]
    norm_num [qdemo, memk, lookup, getD0]
  exact ⟨hl, hu, hm,
    claim_c8_median_consistency qdemo "a" 3 4 (7/2) hl hu hm⟩

/-- C9: every query method, on any keys (tracked or not) and any
threshold or mode, returns without modifying any component of the
engine state. -/
theorem claim_c9_queries_read_only (s : LCState α) (q : QueryCall α) :
    (runQuery s q).2 = s := by
  cases q <;> rfl

/-- C10: in every reachable state the Frequency Table and the error map
have exactly the same key set, so no query on a tracked key can fail on
a missing error entry. -/
theorem claim_c10_key_sets {s : LCState α} {t : List α}
    (h : Reaches s t) (k : α) : memk s.counter k = memk s.error k :=
  (reaches_inv h).2.2.1 k

/-- C10 witness: in the worked example, `"a"` is in both maps and `"b"`
in neither. -/
theorem claim_c10_key_sets_witness :
    memk demoS.counter "a" = true ∧ memk demoS.error "a" = true ∧
    memk demoS.counter "b" = false ∧ memk demoS.error "b" = false ∧
    memk demoS.counter "b" = memk demoS.error "b" :=
  ⟨by decide, by decide, by decide, by decide,
    claim_c10_key_sets demo_reaches "b"⟩

end Claims

end LossyCounting
